import Mathlib

/-!
Verification of the search-and-cache helper layer of the `tsl` library.

The development shallowly embeds the Python sources:
  * `tsl/helpers/cache.py`  — `CacheEntry`, `MemoryBackend`, `FileBackend`,
    `AsyncCache` (`get`, `set`, `get_or_fetch`);
  * `tsl/helpers/stops.py`  — `StopHelper` (`get_all`, `get_by_id`,
    `get_by_global_id`);
  * `tsl/tools/stop_ids.py` — `global_id_to_site_id`;
  * `tsl/helpers/search.py` — `_levenshtein_distance`, `_similarity_ratio`,
    `substring_search`, `fuzzy_search`.

Python strings are modelled as `List Char`, `time.time()` as an explicit
integer parameter `now`, Python `None` as `Option.none`, raising as
`Except.error`, and the asyncio event loop as an explicit interleaving of
the atomic segments between `await` points.
-/

abbrev Str := List Char

/-- A cached value with expiration time (`CacheEntry` in cache.py).
The stored `value` has Python type `Any`; it is modelled as `Option V`
so that a stored Python `None` is representable. -/
structure CacheEntry (V : Type) where
  value : Option V
  expires_at : Int
deriving DecidableEq

/-- CacheEntry.is_expired: `time.time() > self.expires_at`, with the
current time passed explicitly. -/
def CacheEntry.is_expired (e : CacheEntry V) (now : Int) : Bool :=
  decide (now > e.expires_at)

/-- The `MemoryBackend` storage dictionary: key → entry. -/
def MemStore (K V : Type) := K → Option (CacheEntry V)

/-- MemoryBackend.get: return the entry for `k`, except that an expired
entry is deleted from the dictionary and reported as absent.  Returns the
entry (or `none`) together with the updated dictionary. -/
def memGet [DecidableEq K] (now : Int) (st : MemStore K V) (k : K) :
    Option (CacheEntry V) × MemStore K V :=
  match st k with
  | none => (none, st)
  | some e =>
    if e.is_expired now then (none, fun k2 => if k2 = k then none else st k2)
    else (some e, st)

/-- MemoryBackend.set: store the entry under `k`. -/
def memSet [DecidableEq K] (st : MemStore K V) (k : K) (e : CacheEntry V) :
    MemStore K V :=
  fun k2 => if k2 = k then some e else st k2

/-- The file of one `FileBackend` cache key: `none` when the file does not
exist, `some c` when it holds raw content `c`.  Deserialising the content
(json.loads plus the `data["value"]` / `data["expires_at"]` lookups) is
abstracted by a `parse` function; `parse c = none` models a
`json.JSONDecodeError` or `KeyError`. -/
def fileGet (parse : C → Option (Option V × Int)) (now : Int)
    (fs : Option C) : Option (CacheEntry V) × Option C :=
  match fs with
  | none => (none, none)
  | some c =>
    match parse c with
    | none => (none, none)
    | some (v, exp) =>
      if (CacheEntry.mk v exp).is_expired now then (none, none)
      else (some (CacheEntry.mk v exp), fs)

/-- The backend state for one fixed cache key (all claims below concern a
single key; `AsyncCache` operations on other keys touch neither this entry
nor this key's lock). -/
abbrev Cell (V : Type) := Option (CacheEntry V)

/-- MemoryBackend.get restricted to the fixed key. -/
def cellGet (now : Int) (st : Cell V) : Option (CacheEntry V) × Cell V :=
  match st with
  | none => (none, none)
  | some e => if e.is_expired now then (none, none) else (some e, some e)

/-- AsyncCache.get: backend get, then `entry.value` (or `None` when the
entry is absent). -/
def AsyncCache.getVal (now : Int) (st : Cell V) : Option V × Cell V :=
  match cellGet now st with
  | (none, st2) => (none, st2)
  | (some e, st2) => (e.value, st2)

/-- AsyncCache.set: store the value with `expires_at = now + ttl`. -/
def AsyncCache.setVal (now ttl : Int) (v : Option V) : Cell V :=
  some (CacheEntry.mk v (now + ttl))

/-- AsyncCache.get_or_fetch, sequential execution (one caller; the per-key
lock is uncontended, so `async with` just runs its body).  `f n` is the
outcome of the `n`-th invocation of `fetch_fn` — either a raised exception
(`Except.error`) or a returned value — and `cnt` counts invocations made
so far.  Returns (result, backend cell, invocation count). -/
def get_or_fetch (now ttl : Int) (f : Nat → Except E (Option V))
    (st : Cell V) (cnt : Nat) : Except E (Option V) × Cell V × Nat :=
  match AsyncCache.getVal now st with
  | (some v, st1) => (.ok (some v), st1, cnt)
  | (none, st1) =>
    match AsyncCache.getVal now st1 with
    | (some v, st2) => (.ok (some v), st2, cnt)
    | (none, st2) =>
      match f cnt with
      | .error e => (.error e, st2, cnt + 1)
      | .ok w => (.ok w, AsyncCache.setVal now ttl w, cnt + 1)

/-- Operations a helper method performs against its collaborators, in
order: cache reads, cache writes, and invocations of the fetch source. -/
inductive CacheOp
  | cacheGet
  | cacheSet
  | fetchCall
deriving DecidableEq

/-- StopHelper.get_all / LineHelper.get_all (stops.py 170–197,
lines.py 165–192), with the supplied `CacheProtocol` cache instantiated by
an `AsyncCache` (which structurally provides the protocol's
get/set/delete).  `hasCache` models `self._cache is not None`; the stored
TTL is the helpers' `DEFAULT_TTL = 604800`.  Also returns the trace of
collaborator operations performed. -/
def helper_get_all (hasCache : Bool) (now : Int)
    (f : Nat → Except E (Option V)) (st : Cell V) (cnt : Nat) :
    Except E (Option V) × Cell V × Nat × List CacheOp :=
  if hasCache then
    match AsyncCache.getVal now st with
    | (some v, st1) => (.ok (some v), st1, cnt, [CacheOp.cacheGet])
    | (none, st1) =>
      match f cnt with
      | .error e => (.error e, st1, cnt + 1, [CacheOp.cacheGet, CacheOp.fetchCall])
      | .ok w => (.ok w, AsyncCache.setVal now 604800 w, cnt + 1,
                  [CacheOp.cacheGet, CacheOp.fetchCall, CacheOp.cacheSet])
  else
    match f cnt with
    | .error e => (.error e, st, cnt + 1, [CacheOp.fetchCall])
    | .ok w => (.ok w, st, cnt + 1, [CacheOp.fetchCall])

/-- Simplified stop information (`StopInfo` in stops.py). -/
structure StopInfo where
  id : Int
  global_id : Str
  name : Str
  lat : Option ℚ
  lon : Option ℚ
deriving DecidableEq

/-- `GLOBAL_ID_PREFIX = "909100100000"` from stop_ids.py. -/
def globalIdHead : Str := "909100100000".data

/-- Digit-string value, `none` unless the string is a nonempty run of
ASCII digits. -/
def parseNatDigits (s : Str) : Option Nat :=
  if s ≠ [] ∧ s.all Char.isDigit then
    some (s.foldl (fun acc c => acc * 10 + (c.toNat - '0'.toNat)) 0)
  else none

/-- Python `int(s)` on the suffix: an optional sign followed by digits;
`none` models the `ValueError` raised on any other content. -/
def pyParseInt (s : Str) : Option Int :=
  match s with
  | '-' :: rest => (parseNatDigits rest).map (fun n => -(n : Int))
  | '+' :: rest => (parseNatDigits rest).map (fun n => (n : Int))
  | _ => (parseNatDigits s).map (fun n => (n : Int))

/-- global_id_to_site_id (stop_ids.py 66–85): strip the fixed prefix and
parse the remainder as an integer; `Except.error` models the raised
`ValueError` (wrong prefix, or non-numeric suffix). -/
def global_id_to_site_id (gid : Str) : Except Unit Int :=
  if globalIdHead.isPrefixOf gid then
    match pyParseInt (gid.drop globalIdHead.length) with
    | some n => .ok n
    | none => .error ()
  else .error ()

/-- StopHelper.get_by_id: `get_all()` then a linear scan
(`next((s for s in all_stops if s.id == site_id), None)`). -/
def stop_get_by_id (hasCache : Bool) (now : Int)
    (f : Nat → Except E (Option (List StopInfo))) (st : Cell (List StopInfo))
    (cnt : Nat) (site_id : Int) :
    Except E (Option StopInfo) × Cell (List StopInfo) × Nat × List CacheOp :=
  match helper_get_all hasCache now f st cnt with
  | (.error e, st2, c2, tr) => (.error e, st2, c2, tr)
  | (.ok w, st2, c2, tr) =>
    (.ok ((w.getD []).find? (fun s => s.id = site_id)), st2, c2, tr)

/-- StopHelper.get_by_global_id (stops.py 269–287): convert the global ID,
returning `None` when the conversion raises `ValueError`; otherwise defer
to `get_by_id`. -/
def stop_get_by_global_id (hasCache : Bool) (now : Int)
    (f : Nat → Except E (Option (List StopInfo))) (st : Cell (List StopInfo))
    (cnt : Nat) (gid : Str) :
    Except E (Option StopInfo) × Cell (List StopInfo) × Nat × List CacheOp :=
  match global_id_to_site_id gid with
  | .ok sid => stop_get_by_id hasCache now f st cnt sid
  | .error _ => (.ok none, st, cnt, [])

/-- Python `str.lower()`, character-wise. -/
def lowerStr (s : Str) : Str := s.map Char.toLower

/-- Python substring test `needle in hay`. -/
def containsSub (hay needle : Str) : Bool :=
  (List.range (hay.length + 1)).any (fun i => needle.isPrefixOf (hay.drop i))

/-- The inner loop body of `_levenshtein_distance` (search.py 36–44):
given the last computed cell `cur` of `current_row`, the remaining tail of
`previous_row` and the remaining characters of `s2`, produce the rest of
`current_row`.  `insertions = previous_row[j+1] + 1`,
`deletions = current_row[j] + 1`,
`substitutions = previous_row[j] + (c1 != c2)`. -/
def levRowAux (c1 : Char) : List Nat → Str → Nat → List Nat
  | pj :: pj1 :: prest, c2 :: cs, cur =>
    let insertions := pj1 + 1
    let deletions := cur + 1
    let substitutions := pj + (if c1 = c2 then 0 else 1)
    let nx := min (min insertions deletions) substitutions
    nx :: levRowAux c1 (pj1 :: prest) cs nx
  | _, _, _ => []

/-- The outer loop of `_levenshtein_distance`: fold each character of `s1`
into a new row, starting from `previous_row = range(len(s2) + 1)`. -/
def levLoop (s2 : Str) : Str → Nat → List Nat → List Nat
  | [], _, prev => prev
  | c1 :: rest, i, prev => levLoop s2 rest (i + 1) ((i + 1) :: levRowAux c1 prev s2 (i + 1))

/-- Body of `_levenshtein_distance` after the argument swap:
`if len(s2) == 0: return len(s1)`, then the dynamic program, returning
`previous_row[-1]`. -/
def levCore (s1 s2 : Str) : Nat :=
  if s2.length = 0 then s1.length
  else (levLoop s2 s1 0 (List.range (s2.length + 1))).getLastD 0

/-- `_levenshtein_distance` (search.py 23–46): swap so that `s1` is the
longer string, then run the row dynamic program. -/
def levenshtein_distance (s1 s2 : Str) : Nat :=
  if s1.length < s2.length then levCore s2 s1 else levCore s1 s2

/-- `_similarity_ratio` (search.py 49–61): 1 for two empty strings, 0 when
exactly one is empty, else `1 - distance / max_len` on the lower-cased
strings. -/
def similarityScore (s1 s2 : Str) : ℚ :=
  if s1 = [] ∧ s2 = [] then 1
  else if s1 = [] ∨ s2 = [] then 0
  else
    1 - (levenshtein_distance (lowerStr s1) (lowerStr s2) : ℚ)
        / ((max s1.length s2.length : Nat) : ℚ)

/-- The classifying loop of `substring_search` (search.py 94–102): one
pass over the items, appending each to the `exact`, `starts_with` or
`contains` bucket (or none). -/
def substringBuckets (ql : Str) (key : T → Str) :
    List T → List T × List T × List T
  | [] => ([], [], [])
  | item :: rest =>
    let (e, s, c) := substringBuckets ql key rest
    let text := lowerStr (key item)
    if text = ql then (item :: e, s, c)
    else if ql.isPrefixOf text then (e, item :: s, c)
    else if containsSub text ql then (e, s, item :: c)
    else (e, s, c)

/-- `substring_search` (search.py 64–106): empty query gives `[]`;
otherwise `exact + starts_with + contains`, truncated to `limit`. -/
def substring_search (items : List T) (query : Str) (key : T → Str)
    (limit : Nat) : List T :=
  if query = [] then []
  else
    let ql := lowerStr query
    let (e, s, c) := substringBuckets ql key items
    (e ++ s ++ c).take limit

/-- Python `str.split()`: split on whitespace runs, discarding empty
pieces. -/
def splitWs (s : Str) : List Str :=
  (s.foldr
    (fun c acc =>
      if c.isWhitespace then [] :: acc
      else
        match acc with
        | [] => [[c]]
        | w :: ws => (c :: w) :: ws)
    []).filter (fun w => w ≠ [])

/-- Per-item score of `fuzzy_search` (search.py 138–165): substring
matches get the fixed tiers 1 / 0.95 / 0.9; otherwise the edit-distance
similarity, where for a text more than twice the query's length the best
word-wise score is also considered. -/
def fuzzyScore (ql : Str) (text : Str) : ℚ :=
  let tl := lowerStr text
  if containsSub tl ql then
    if tl = ql then 1
    else if ql.isPrefixOf tl then 95 / 100
    else 9 / 10
  else
    if ql.length * 2 < tl.length then
      let words := splitWs (tl.map (fun c => if c = '-' then ' ' else c))
      let best := (words.map (fun w => similarityScore ql w)).foldl max 0
      let full := similarityScore ql tl
      max best full
    else similarityScore ql tl

/-- Stable insertion of a scored item into a descending-sorted list built
from the items that FOLLOW it in input order: the item goes before every
element of score ≤ its own (for equal scores the earlier item stays
first, matching Python's stable sort), and after every element of
strictly greater score. -/
def insertScoredDesc (x : ℚ × T) : List (ℚ × T) → List (ℚ × T)
  | [] => [x]
  | y :: ys => if y.1 ≤ x.1 then x :: y :: ys else y :: insertScoredDesc x ys

/-- Python `scored.sort(key=lambda x: x[0], reverse=True)`: a stable sort,
descending by score.  A stable sort result is uniquely determined by the
key order, so stable insertion sort models it exactly. -/
def sortScoredDesc (l : List (ℚ × T)) : List (ℚ × T) :=
  l.foldr insertScoredDesc []

/-- The scoring pass of `fuzzy_search` (search.py 136–168): one traversal
of the items, keeping `(score, item)` for every item whose score reaches
the threshold, in input order. -/
def scoredItems (items : List T) (ql : Str) (key : T → Str)
    (threshold : ℚ) : List (ℚ × T) :=
  items.filterMap (fun item =>
    let sc := fuzzyScore ql (key item)
    if threshold ≤ sc then some (sc, item) else none)

/-- `fuzzy_search` (search.py 109–173): score every item, keep those with
score ≥ threshold, sort by score descending (stable), truncate to `limit`
and drop the scores. -/
def fuzzy_search (items : List T) (query : Str) (key : T → Str)
    (limit : Nat) (threshold : ℚ) : List T :=
  if query = [] then []
  else
    ((sortScoredDesc (scoredItems items (lowerStr query) key threshold)).take
      limit).map (fun p => p.2)

/-- Specification-side recursive Levenshtein distance (first-character
recurrence).  Used only as a stepping stone between the row dynamic
program of the source and the minimal-edit-script characterisation. -/
def levSpec : Str → Str → Nat
  | [], ys => ys.length
  | _ :: xs, [] => xs.length + 1
  | x :: xs, y :: ys =>
    min (min (levSpec xs (y :: ys) + 1) (levSpec (x :: xs) ys + 1))
        (levSpec xs ys + (if x = y then 0 else 1))
termination_by xs ys => xs.length + ys.length
decreasing_by all_goals (simp <;> omega)

/-- A single edit: insert one character, delete one character, or
substitute one character, anywhere in the string. -/
inductive EditStep : Str → Str → Prop
  | ins (a b : Str) (c : Char) : EditStep (a ++ b) (a ++ c :: b)
  | del (a b : Str) (c : Char) : EditStep (a ++ c :: b) (a ++ b)
  | sub (a b : Str) (c d : Char) : EditStep (a ++ c :: b) (a ++ d :: b)

/-- `Transforms xs ys n`: some sequence of `n` single-character edits
turns `xs` into `ys`. -/
inductive Transforms : Str → Str → Nat → Prop
  | refl (xs : Str) : Transforms xs xs 0
  | step {xs ws ys : Str} {n : Nat} :
      EditStep xs ws → Transforms ws ys n → Transforms xs ys (n + 1)


/-- Program counter of one `get_or_fetch` caller in the interleaving
model of the asyncio event loop.  Each constructor is the atomic segment
the caller will execute next; the segment boundaries are the `await`
points of the source (cache.py 225–243): the fast-path `self.get`, the
lock acquisition, the double-check `self.get`, the `fetch_fn()` call, the
`self.set`, and the lock release on exiting `async with` together with
the return. -/
inductive GofPc (V : Type)
  | atGet
  | atAcquire
  | atRecheck
  | atFetch
  | atSet (w : Option V)
  | atRelease (w : Option V)
  | done (r : Option V)
deriving DecidableEq

/-- Whether a caller has returned. -/
def GofPc.isDone : GofPc V → Bool
  | .done _ => true
  | _ => false

/-- Whether a caller currently holds the per-key fetch lock (it is inside
the `async with self._fetch_locks[key]` block). -/
def GofPc.inCS : GofPc V → Prop
  | .atRecheck => True
  | .atFetch => True
  | .atSet _ => True
  | .atRelease _ => True
  | _ => False

/-- Shared state of `n` concurrent `get_or_fetch` callers on one key:
the backend cell for the key, the key's fetch lock, the number of
`fetch_fn` invocations so far, and each caller's program counter.
The current time `t` is fixed for the whole run: the run models one
cache-miss episode.  The lazy creation of the key's lock
(`if key not in self._fetch_locks`) contains no `await` and therefore
happens atomically inside the acquisition step. -/
structure GofSys (V : Type) (n : Nat) where
  store : Cell V
  lock : Bool
  fetchCount : Nat
  procs : Fin n → GofPc V

/-- One atomic step of caller `i`.  A caller whose next segment is the
lock acquisition while the lock is held is blocked (the step is a no-op),
as is a finished caller.  `f k` is the value returned by the `k`-th
invocation of `fetch_fn`. -/
def gofStep (t ttl : Int) (f : Nat → Option V) (s : GofSys V n) (i : Fin n) :
    GofSys V n :=
  match s.procs i with
  | .atGet =>
    match AsyncCache.getVal t s.store with
    | (some v, st2) =>
      { s with store := st2, procs := Function.update s.procs i (.done (some v)) }
    | (none, st2) =>
      { s with store := st2, procs := Function.update s.procs i .atAcquire }
  | .atAcquire =>
    if s.lock then s
    else { s with lock := true, procs := Function.update s.procs i .atRecheck }
  | .atRecheck =>
    match AsyncCache.getVal t s.store with
    | (some v, st2) =>
      { s with store := st2, lock := false,
               procs := Function.update s.procs i (.done (some v)) }
    | (none, st2) =>
      { s with store := st2, procs := Function.update s.procs i .atFetch }
  | .atFetch =>
    { s with fetchCount := s.fetchCount + 1,
             procs := Function.update s.procs i (.atSet (f s.fetchCount)) }
  | .atSet w =>
    { s with store := AsyncCache.setVal t ttl w,
             procs := Function.update s.procs i (.atRelease w) }
  | .atRelease w =>
    { s with lock := false, procs := Function.update s.procs i (.done w) }
  | .done _ => s

/-- Run a schedule (a list of caller indices) from a state. -/
def gofRun (t ttl : Int) (f : Nat → Option V) (s : GofSys V n) :
    List (Fin n) → GofSys V n
  | [] => s
  | i :: rest => gofRun t ttl f (gofStep t ttl f s i) rest

/-- Initial state: every caller about to run its fast-path get. -/
def gofInit (V : Type) (n : Nat) (st0 : Cell V) : GofSys V n :=
  ⟨st0, false, 0, fun _ => .atGet⟩

/-- Program counter of one helper `get_all` caller (stops.py 184–197):
the cache read, the `_fetch_all` call, and the cache write.  There is no
lock anywhere in `get_all`. -/
inductive GaPc (V : Type)
  | atGet
  | atFetch
  | atSet (w : Option V)
  | done (r : Option V)
deriving DecidableEq

/-- Shared state of `n` concurrent `get_all` callers (cache configured),
with the cache instantiated by an `AsyncCache` cell as in
`helper_get_all`. -/
structure GaSys (V : Type) (n : Nat) where
  store : Cell V
  fetchCount : Nat
  procs : Fin n → GaPc V

/-- One atomic step of `get_all` caller `i`; the stored TTL is the
helpers' `DEFAULT_TTL = 604800`. -/
def gaStep (t : Int) (f : Nat → Option V) (s : GaSys V n) (i : Fin n) :
    GaSys V n :=
  match s.procs i with
  | .atGet =>
    match AsyncCache.getVal t s.store with
    | (some v, st2) =>
      { s with store := st2, procs := Function.update s.procs i (.done (some v)) }
    | (none, st2) =>
      { s with store := st2, procs := Function.update s.procs i .atFetch }
  | .atFetch =>
    { s with fetchCount := s.fetchCount + 1,
             procs := Function.update s.procs i (.atSet (f s.fetchCount)) }
  | .atSet w =>
    { s with store := AsyncCache.setVal t 604800 w,
             procs := Function.update s.procs i (.done w) }
  | .done _ => s

/-- Run a schedule of `get_all` callers. -/
def gaRun (t : Int) (f : Nat → Option V) (s : GaSys V n) :
    List (Fin n) → GaSys V n
  | [] => s
  | i :: rest => gaRun t f (gaStep t f s i) rest

/-- Initial `get_all` state. -/
def gaInit (V : Type) (n : Nat) (st0 : Cell V) : GaSys V n :=
  ⟨st0, 0, fun _ => .atGet⟩



/-- The fast-path `get` at time `t` would miss: there is no unexpired
entry carrying a non-`None` value. -/
def missStore (t : Int) (st : Cell V) : Prop :=
  (AsyncCache.getVal t st).1 = none

/-- Reachability invariant of `n` concurrent `get_or_fetch` callers on an
initially unpopulated key, assuming every fetch result is non-`None` and
the TTL is nonnegative.  Four phases: before any fetch (`phaseA`); fetch
done but value not yet stored (`phaseB1`); value stored but lock still
held (`phaseB2`); lock released after the single fetch (`phaseB3`). -/
inductive GofInv (t ttl : Int) (f : Nat → Option V) : GofSys V n → Prop
  | phaseA (s : GofSys V n)
      (hc : s.fetchCount = 0)
      (hm : missStore t s.store)
      (hp : ∀ i, s.procs i = .atGet ∨ s.procs i = .atAcquire ∨
            s.procs i = .atRecheck ∨ s.procs i = .atFetch)
      (hcs : ∀ i, (s.procs i).inCS → s.lock = true)
      (huniq : ∀ i j, (s.procs i).inCS → (s.procs j).inCS → i = j) :
      GofInv t ttl f s
  | phaseB1 (s : GofSys V n) (o : Fin n)
      (hc : s.fetchCount = 1)
      (hm : missStore t s.store)
      (hl : s.lock = true)
      (ho : s.procs o = .atSet (f 0))
      (hrest : ∀ i, i ≠ o → s.procs i = .atGet ∨ s.procs i = .atAcquire) :
      GofInv t ttl f s
  | phaseB2 (s : GofSys V n) (o : Fin n)
      (hc : s.fetchCount = 1)
      (hstore : s.store = some (CacheEntry.mk (f 0) (t + ttl)))
      (hl : s.lock = true)
      (ho : s.procs o = .atRelease (f 0))
      (hrest : ∀ i, i ≠ o → s.procs i = .atGet ∨ s.procs i = .atAcquire ∨
          s.procs i = .done (f 0)) :
      GofInv t ttl f s
  | phaseB3 (s : GofSys V n)
      (hc : s.fetchCount = 1)
      (hstore : s.store = some (CacheEntry.mk (f 0) (t + ttl)))
      (hp : ∀ i, s.procs i = .atGet ∨ s.procs i = .atAcquire ∨
            s.procs i = .atRecheck ∨ s.procs i = .done (f 0))
      (hcs : ∀ i, (s.procs i).inCS → s.lock = true)
      (huniq : ∀ i j, (s.procs i).inCS → (s.procs j).inCS → i = j) :
      GofInv t ttl f s


theorem levSpec_nil_left (ys : Str) : levSpec [] ys = ys.length := by
  simp [levSpec]

theorem levSpec_nil_right (xs : Str) : levSpec xs [] = xs.length := by
  cases xs <;> simp [levSpec]

theorem levSpec_cons_cons (x y : Char) (xs ys : Str) :
    levSpec (x :: xs) (y :: ys) =
      min (min (levSpec xs (y :: ys) + 1) (levSpec (x :: xs) ys + 1))
        (levSpec xs ys + (if x = y then 0 else 1)) := by
  simp [levSpec]

theorem levSpec_self (xs : Str) : levSpec xs xs = 0 := by
  induction xs with
  | nil => simp [levSpec]
  | cons x xs ih => rw [levSpec_cons_cons]; simp [ih]

theorem levSpec_le_cons_left (x : Char) (xs ys : Str) :
    levSpec (x :: xs) ys ≤ levSpec xs ys + 1 := by
  cases ys with
  | nil => simp [levSpec_nil_right]
  | cons y ys => rw [levSpec_cons_cons]; omega

theorem levSpec_le_cons_right (y : Char) (xs ys : Str) :
    levSpec xs (y :: ys) ≤ levSpec xs ys + 1 := by
  cases xs with
  | nil => simp [levSpec_nil_left]
  | cons x xs => rw [levSpec_cons_cons]; omega

theorem levSpec_del_le : ∀ (a zs b : Str) (c : Char),
    levSpec (a ++ b) zs ≤ levSpec (a ++ c :: b) zs + 1
  | [], [], b, c => by simp [levSpec_nil_right]; omega
  | [], z :: zs2, b, c => by
    have h1 := levSpec_le_cons_right z b zs2
    have h2 := levSpec_del_le [] zs2 b c
    simp only [List.nil_append] at *
    rw [levSpec_cons_cons c z b zs2]
    split <;> omega
  | x :: a2, [], b, c => by simp [levSpec_nil_right]; omega
  | x :: a2, z :: zs2, b, c => by
    have h1 := levSpec_del_le a2 (z :: zs2) b c
    have h2 := levSpec_del_le (x :: a2) zs2 b c
    have h3 := levSpec_del_le a2 zs2 b c
    simp only [List.cons_append] at *
    rw [levSpec_cons_cons, levSpec_cons_cons] at *
    omega
termination_by a zs => a.length + zs.length
decreasing_by all_goals (simp <;> omega)

theorem levSpec_ins_le : ∀ (a zs b : Str) (c : Char),
    levSpec (a ++ c :: b) zs ≤ levSpec (a ++ b) zs + 1
  | [], [], b, c => by simp [levSpec_nil_right]
  | [], z :: zs2, b, c => by
    have h1 := levSpec_le_cons_left c b (z :: zs2)
    simpa using h1
  | x :: a2, [], b, c => by simp [levSpec_nil_right]; omega
  | x :: a2, z :: zs2, b, c => by
    have h1 := levSpec_ins_le a2 (z :: zs2) b c
    have h2 := levSpec_ins_le (x :: a2) zs2 b c
    have h3 := levSpec_ins_le a2 zs2 b c
    simp only [List.cons_append] at *
    rw [levSpec_cons_cons, levSpec_cons_cons] at *
    omega
termination_by a zs => a.length + zs.length
decreasing_by all_goals (simp <;> omega)

theorem levSpec_sub_le : ∀ (a zs b : Str) (c d : Char),
    levSpec (a ++ d :: b) zs ≤ levSpec (a ++ c :: b) zs + 1
  | [], [], b, c, d => by simp [levSpec_nil_right]
  | [], z :: zs2, b, c, d => by
    have h2 := levSpec_sub_le [] zs2 b c d
    simp only [List.nil_append] at *
    rw [levSpec_cons_cons (x := d), levSpec_cons_cons (x := c)] at *
    split <;> split <;> omega
  | x :: a2, [], b, c, d => by simp [levSpec_nil_right]
  | x :: a2, z :: zs2, b, c, d => by
    have h1 := levSpec_sub_le a2 (z :: zs2) b c d
    have h2 := levSpec_sub_le (x :: a2) zs2 b c d
    have h3 := levSpec_sub_le a2 zs2 b c d
    simp only [List.cons_append] at *
    rw [levSpec_cons_cons, levSpec_cons_cons] at *
    omega
termination_by a zs => a.length + zs.length
decreasing_by all_goals (simp <;> omega)

theorem editStep_levSpec_le {xs ws : Str} (e : EditStep xs ws) (zs : Str) :
    levSpec xs zs ≤ levSpec ws zs + 1 := by
  cases e with
  | ins a b c => exact levSpec_del_le a zs b c
  | del a b c => exact levSpec_ins_le a zs b c
  | sub a b c d => exact levSpec_sub_le a zs b d c

theorem transforms_levSpec_le {xs ys : Str} {n : Nat}
    (t : Transforms xs ys n) : levSpec xs ys ≤ n := by
  induction t with
  | refl xs => simp [levSpec_self]
  | step e _ ih =>
    rename_i xs ws ys n _
    calc levSpec xs ys ≤ levSpec ws ys + 1 := editStep_levSpec_le e ys
      _ ≤ n + 1 := by omega

theorem transforms_trans {a b c : Str} {m n : Nat}
    (t1 : Transforms a b m) (t2 : Transforms b c n) : Transforms a c (m + n) := by
  induction t1 with
  | refl => simpa using t2
  | step e _ ih =>
    rename_i k _
    have h := Transforms.step e (ih t2)
    have harith : k + n + 1 = k + 1 + n := by omega
    exact harith ▸ h

theorem transforms_snoc {a b c : Str} {m : Nat}
    (t : Transforms a b m) (e : EditStep b c) : Transforms a c (m + 1) :=
  transforms_trans t (Transforms.step e (Transforms.refl c))

theorem editStep_cons {xs ys : Str} (x : Char) (e : EditStep xs ys) :
    EditStep (x :: xs) (x :: ys) := by
  cases e with
  | ins a b c => exact EditStep.ins (x :: a) b c
  | del a b c => exact EditStep.del (x :: a) b c
  | sub a b c d => exact EditStep.sub (x :: a) b c d

theorem transforms_cons {xs ys : Str} {n : Nat} (x : Char)
    (t : Transforms xs ys n) : Transforms (x :: xs) (x :: ys) n := by
  induction t with
  | refl => exact Transforms.refl _
  | step e _ ih => exact Transforms.step (editStep_cons x e) ih


theorem levSpec_transforms : ∀ (xs ys : Str), Transforms xs ys (levSpec xs ys)
  | [], ys => by
    rw [levSpec_nil_left]
    induction ys with
    | nil => exact Transforms.refl []
    | cons y ys ih =>
      exact transforms_snoc ih (by simpa using EditStep.ins [] ys y)
  | x :: xs, [] => by
    have t := levSpec_transforms xs []
    rw [levSpec_nil_right] at t
    rw [levSpec_nil_right]
    exact Transforms.step (by simpa using EditStep.del [] xs x) t
  | x :: xs, y :: ys => by
    rw [levSpec_cons_cons]
    rcases min_cases (min (levSpec xs (y :: ys) + 1) (levSpec (x :: xs) ys + 1))
        (levSpec xs ys + (if x = y then 0 else 1)) with ⟨h1, _⟩ | ⟨h1, _⟩
    · rw [h1]
      rcases min_cases (levSpec xs (y :: ys) + 1) (levSpec (x :: xs) ys + 1) with
        ⟨h2, _⟩ | ⟨h2, _⟩
      · rw [h2]
        exact Transforms.step (by simpa using EditStep.del [] xs x)
          (levSpec_transforms xs (y :: ys))
      · rw [h2]
        exact transforms_snoc (levSpec_transforms (x :: xs) ys)
          (by simpa using EditStep.ins [] ys y)
    · rw [h1]
      by_cases hx : x = y
      · subst hx
        simpa using transforms_cons x (levSpec_transforms xs ys)
      · simp only [hx, if_neg, ite_false]
        exact Transforms.step (by simpa using EditStep.sub [] xs x y)
          (transforms_cons y (levSpec_transforms xs ys))
termination_by xs ys => xs.length + ys.length
decreasing_by all_goals (simp <;> omega)

theorem editStep_symm {xs ys : Str} (e : EditStep xs ys) : EditStep ys xs := by
  cases e with
  | ins a b c => exact EditStep.del a b c
  | del a b c => exact EditStep.ins a b c
  | sub a b c d => exact EditStep.sub a b d c

theorem transforms_symm {xs ys : Str} {n : Nat} (t : Transforms xs ys n) :
    Transforms ys xs n := by
  induction t with
  | refl => exact Transforms.refl _
  | step e _ ih => exact transforms_snoc ih (editStep_symm e)

theorem levSpec_comm (xs ys : Str) : levSpec xs ys = levSpec ys xs :=
  le_antisymm (transforms_levSpec_le (transforms_symm (levSpec_transforms ys xs)))
    (transforms_levSpec_le (transforms_symm (levSpec_transforms xs ys)))

theorem editStep_reverse {xs ys : Str} (e : EditStep xs ys) :
    EditStep xs.reverse ys.reverse := by
  cases e with
  | ins a b c =>
    have h := EditStep.ins b.reverse a.reverse c
    simpa [List.reverse_append] using h
  | del a b c =>
    have h := EditStep.del b.reverse a.reverse c
    simpa [List.reverse_append] using h
  | sub a b c d =>
    have h := EditStep.sub b.reverse a.reverse c d
    simpa [List.reverse_append] using h

theorem transforms_reverse {xs ys : Str} {n : Nat} (t : Transforms xs ys n) :
    Transforms xs.reverse ys.reverse n := by
  induction t with
  | refl => exact Transforms.refl _
  | step e _ ih => exact Transforms.step (editStep_reverse e) ih

theorem levSpec_reverse (xs ys : Str) :
    levSpec xs.reverse ys.reverse = levSpec xs ys := by
  refine le_antisymm (transforms_levSpec_le (transforms_reverse (levSpec_transforms xs ys))) ?_
  have t := transforms_reverse (levSpec_transforms xs.reverse ys.reverse)
  rw [List.reverse_reverse, List.reverse_reverse] at t
  exact transforms_levSpec_le t

theorem levSpec_concat_concat (xs ys : Str) (c d : Char) :
    levSpec (xs ++ [c]) (ys ++ [d]) =
      min (min (levSpec xs (ys ++ [d]) + 1) (levSpec (xs ++ [c]) ys + 1))
        (levSpec xs ys + (if c = d then 0 else 1)) := by
  have e1 : levSpec xs.reverse (d :: ys.reverse) = levSpec xs (ys ++ [d]) := by
    rw [show d :: ys.reverse = (ys ++ [d]).reverse by simp]
    exact levSpec_reverse xs (ys ++ [d])
  have e2 : levSpec (c :: xs.reverse) ys.reverse = levSpec (xs ++ [c]) ys := by
    rw [show c :: xs.reverse = (xs ++ [c]).reverse by simp]
    exact levSpec_reverse (xs ++ [c]) ys
  have e3 : levSpec xs.reverse ys.reverse = levSpec xs ys := levSpec_reverse xs ys
  have h0 : levSpec (xs ++ [c]) (ys ++ [d]) =
      levSpec (c :: xs.reverse) (d :: ys.reverse) := by
    rw [show c :: xs.reverse = (xs ++ [c]).reverse by simp,
      show d :: ys.reverse = (ys ++ [d]).reverse by simp, levSpec_reverse]
  rw [h0, levSpec_cons_cons, e1, e2, e3]

theorem levRowAux_spec : ∀ (cs : Str) (acc xs : Str) (c1 : Char),
    levRowAux c1
        ((List.range (cs.length + 1)).map (fun j => levSpec xs (acc ++ cs.take j)))
        cs (levSpec (xs ++ [c1]) acc)
      = (List.range cs.length).map (fun j => levSpec (xs ++ [c1]) (acc ++ cs.take (j + 1)))
  | [], acc, xs, c1 => by simp [levRowAux]
  | c2 :: cs2, acc, xs, c1 => by
    have hprev : (List.range ((c2 :: cs2).length + 1)).map
          (fun j => levSpec xs (acc ++ (c2 :: cs2).take j))
        = levSpec xs acc ::
          (List.range (cs2.length + 1)).map
            (fun j => levSpec xs ((acc ++ [c2]) ++ cs2.take j)) := by
      rw [List.length_cons, List.range_succ_eq_map, List.map_cons, List.map_map]
      simp [Function.comp]
    have hsplit : (List.range (cs2.length + 1)).map
          (fun j => levSpec xs ((acc ++ [c2]) ++ cs2.take j))
        = levSpec xs (acc ++ [c2]) ::
          (List.range cs2.length).map
            (fun j => levSpec xs ((acc ++ [c2]) ++ cs2.take (j + 1))) := by
      rw [List.range_succ_eq_map, List.map_cons, List.map_map]
      simp [Function.comp]
    have hnx := (levSpec_concat_concat xs acc c1 c2).symm
    have ih := levRowAux_spec cs2 (acc ++ [c2]) xs c1
    have hgoal : (List.range (c2 :: cs2).length).map
          (fun j => levSpec (xs ++ [c1]) (acc ++ (c2 :: cs2).take (j + 1)))
        = levSpec (xs ++ [c1]) (acc ++ [c2]) ::
          (List.range cs2.length).map
            (fun j => levSpec (xs ++ [c1]) ((acc ++ [c2]) ++ cs2.take (j + 1))) := by
      rw [List.length_cons, List.range_succ_eq_map, List.map_cons, List.map_map]
      simp [Function.comp]
    rw [hprev, hsplit, levRowAux, hgoal]
    rw [hnx, ← hsplit, ih]
termination_by cs => cs.length

theorem levLoop_spec : ∀ (rest done s2 : Str),
    levLoop s2 rest done.length
        ((List.range (s2.length + 1)).map (fun j => levSpec done (s2.take j)))
      = (List.range (s2.length + 1)).map (fun j => levSpec (done ++ rest) (s2.take j))
  | [], done, s2 => by simp [levLoop]
  | c1 :: rest2, done, s2 => by
    have hrow := levRowAux_spec s2 [] done c1
    simp only [List.nil_append] at hrow
    have hcur : levSpec (done ++ [c1]) [] = done.length + 1 := by
      rw [levSpec_nil_right]; simp
    have hnew : (done.length + 1) ::
          (List.range s2.length).map (fun j => levSpec (done ++ [c1]) (s2.take (j + 1)))
        = (List.range (s2.length + 1)).map (fun j => levSpec (done ++ [c1]) (s2.take j)) := by
      rw [List.range_succ_eq_map, List.map_cons, List.map_map]
      simp [Function.comp, hcur.symm]
    have ih := levLoop_spec rest2 (done ++ [c1]) s2
    simp only [List.length_append, List.length_cons, List.length_nil] at ih
    rw [levLoop, ← hcur, hrow, hcur, hnew]
    have harr : done.length + 1 = done.length + [c1].length := by simp
    rw [show done ++ c1 :: rest2 = (done ++ [c1]) ++ rest2 by simp]
    rw [show done.length + 1 = done.length + 1 + 0 by omega] at ih ⊢
    simpa using ih
termination_by rest => rest.length

theorem levCore_spec (s1 s2 : Str) : levCore s1 s2 = levSpec s1 s2 := by
  unfold levCore
  by_cases h2 : s2.length = 0
  · rw [if_pos h2]
    rw [List.length_eq_zero.mp h2, levSpec_nil_right]
  · rw [if_neg h2]
    have hinit : List.range (s2.length + 1) =
        (List.range (s2.length + 1)).map (fun j => levSpec [] (s2.take j)) := by
      have : ∀ j ∈ List.range (s2.length + 1), levSpec [] (s2.take j) = j := by
        intro j hj
        rw [levSpec_nil_left, List.length_take]
        exact min_eq_left (by simpa [Nat.lt_succ_iff] using List.mem_range.mp hj)
      rw [List.map_congr_left this]
      simp
    rw [hinit]
    have hloop := levLoop_spec s1 [] s2
    simp only [List.length_nil, List.nil_append] at hloop
    rw [hloop]
    rw [List.range_succ, List.map_append]
    simp only [List.map_cons, List.map_nil]
    rw [List.getLastD_concat, List.take_length]

theorem levenshtein_distance_spec (s1 s2 : Str) :
    levenshtein_distance s1 s2 = levSpec s1 s2 := by
  unfold levenshtein_distance
  by_cases h : s1.length < s2.length
  · rw [if_pos h, levCore_spec, levSpec_comm]
  · rw [if_neg h, levCore_spec]

/-- C6: `_levenshtein_distance` computes, for every pair of strings, the
classic Levenshtein edit distance — the least number `n` such that some
sequence of `n` single-character insertions, deletions and substitutions
(each of cost 1) transforms one string into the other.  Instantiating the
strings with `lowerStr s1` and `lowerStr s2` is exactly the
case-insensitive use made by `_similarity_ratio`, which calls the distance
on the lower-cased strings. -/
theorem levenshtein_correct (s1 s2 : Str) :
    IsLeast {n | Transforms s1 s2 n} (levenshtein_distance s1 s2) := by
  rw [levenshtein_distance_spec]
  exact ⟨levSpec_transforms s1 s2, fun n hn => transforms_levSpec_le hn⟩

example : levenshtein_distance "kitten".data "sitting".data = 3 := by decide
example : levenshtein_distance "abc".data "abc".data = 0 := by decide
example : levenshtein_distance "".data "abc".data = 3 := by decide
example : levenshtein_distance "flaw".data "lawn".data = 2 := by decide

theorem substringBuckets_eq {T : Type} (ql : Str) (key : T → Str) (items : List T) :
    substringBuckets ql key items =
      (items.filter (fun it => decide (lowerStr (key it) = ql)),
       items.filter (fun it =>
         !decide (lowerStr (key it) = ql) && ql.isPrefixOf (lowerStr (key it))),
       items.filter (fun it =>
         !decide (lowerStr (key it) = ql) && !(ql.isPrefixOf (lowerStr (key it))) &&
           containsSub (lowerStr (key it)) ql)) := by
  induction items with
  | nil => simp [substringBuckets]
  | cons it rest ih =>
    simp only [substringBuckets, ih]
    by_cases h1 : lowerStr (key it) = ql
    · simp [List.filter_cons, h1]
    · by_cases h2 : ql.isPrefixOf (lowerStr (key it))
      · simp [List.filter_cons, h1, h2]
      · by_cases h3 : containsSub (lowerStr (key it)) ql
        · simp [List.filter_cons, h1, h2, h3]
        · simp [List.filter_cons, h1, h2, h3]

/-- C7: for every item list, non-empty query and limit, `substring_search`
returns the concatenation of the three buckets in priority order — exact
case-insensitive match, then prefix match, then substring match — each
bucket a filter of the input (so each preserves input order), truncated to
the first `limit` elements. -/
theorem substring_search_buckets {T : Type} (items : List T) (query : Str)
    (key : T → Str) (limit : Nat) (hq : query ≠ []) :
    substring_search items query key limit =
      (items.filter (fun it => decide (lowerStr (key it) = lowerStr query))
        ++ items.filter (fun it =>
             !decide (lowerStr (key it) = lowerStr query) &&
               (lowerStr query).isPrefixOf (lowerStr (key it)))
        ++ items.filter (fun it =>
             !decide (lowerStr (key it) = lowerStr query) &&
               !((lowerStr query).isPrefixOf (lowerStr (key it))) &&
               containsSub (lowerStr (key it)) (lowerStr query))).take limit := by
  rw [substring_search, if_neg hq]
  simp only [substringBuckets_eq]

example :
    substring_search ["abc".data, "zabcz".data, "abcd".data, "q".data]
      "ABC".data (fun s => s) 10
    = ["abc".data, "abcd".data, "zabcz".data] := by decide

theorem mem_insertScoredDesc {T : Type} {x y : ℚ × T} :
    ∀ {l : List (ℚ × T)}, y ∈ insertScoredDesc x l ↔ y = x ∨ y ∈ l
  | [] => by simp [insertScoredDesc]
  | z :: zs => by
    simp only [insertScoredDesc]
    split
    · simp
    · simp only [List.mem_cons, mem_insertScoredDesc (l := zs)]
      tauto

theorem pairwise_insertScoredDesc {T : Type} (x : ℚ × T) :
    ∀ (l : List (ℚ × T)), l.Pairwise (fun a b => b.1 ≤ a.1) →
      (insertScoredDesc x l).Pairwise (fun a b => b.1 ≤ a.1)
  | [], _ => by simp [insertScoredDesc]
  | z :: zs, h => by
    rw [List.pairwise_cons] at h
    simp only [insertScoredDesc]
    split
    · rename_i hle
      rw [List.pairwise_cons]
      refine ⟨?_, by rw [List.pairwise_cons]; exact h⟩
      intro b hb
      rcases List.mem_cons.mp hb with rfl | hb
      · exact hle
      · exact le_trans (h.1 b hb) hle
    · rename_i hgt
      rw [List.pairwise_cons]
      refine ⟨?_, pairwise_insertScoredDesc x zs h.2⟩
      intro b hb
      rcases mem_insertScoredDesc.mp hb with rfl | hb
      · exact le_of_lt (not_le.mp hgt)
      · exact h.1 b hb

theorem mem_sortScoredDesc {T : Type} {y : ℚ × T} :
    ∀ {l : List (ℚ × T)}, y ∈ sortScoredDesc l ↔ y ∈ l
  | [] => by simp [sortScoredDesc]
  | z :: zs => by
    simp only [sortScoredDesc, List.foldr_cons]
    rw [mem_insertScoredDesc]
    simp only [List.mem_cons]
    have := mem_sortScoredDesc (y := y) (l := zs)
    simp only [sortScoredDesc] at this
    tauto

theorem pairwise_sortScoredDesc {T : Type} :
    ∀ (l : List (ℚ × T)), (sortScoredDesc l).Pairwise (fun a b => b.1 ≤ a.1)
  | [] => by simp [sortScoredDesc]
  | z :: zs => by
    simp only [sortScoredDesc, List.foldr_cons]
    have := pairwise_sortScoredDesc (T := T) zs
    simp only [sortScoredDesc] at this
    exact pairwise_insertScoredDesc z _ this

theorem mem_scoredItems {T : Type} {p : ℚ × T} {items : List T} {ql : Str}
    {key : T → Str} {threshold : ℚ} (h : p ∈ scoredItems items ql key threshold) :
    p.1 = fuzzyScore ql (key p.2) ∧ threshold ≤ p.1 ∧ p.2 ∈ items := by
  rw [scoredItems, List.mem_filterMap] at h
  obtain ⟨item, hmem, heq⟩ := h
  by_cases hth : threshold ≤ fuzzyScore ql (key item)
  · simp only [hth, if_pos] at heq
    cases heq
    exact ⟨rfl, hth, hmem⟩
  · simp [hth] at heq

theorem fuzzyScore_substring_tier {ql t : Str}
    (h : containsSub (lowerStr t) ql = true) : 9 / 10 ≤ fuzzyScore ql t := by
  rw [fuzzyScore, if_pos h]
  split
  · norm_num
  · split <;> norm_num

theorem fuzzy_search_score_anti {T : Type} (items : List T) (query : Str)
    (key : T → Str) (limit : Nat) (threshold : ℚ) (hq : query ≠ [])
    (i j : Nat) (hij : i < j)
    (hj : j < (fuzzy_search items query key limit threshold).length) :
    fuzzyScore (lowerStr query)
        (key ((fuzzy_search items query key limit threshold).get ⟨j, hj⟩)) ≤
      fuzzyScore (lowerStr query)
        (key ((fuzzy_search items query key limit threshold).get
          ⟨i, lt_trans hij hj⟩)) := by
  have hres : fuzzy_search items query key limit threshold =
      ((sortScoredDesc (scoredItems items (lowerStr query) key threshold)).take
        limit).map (fun p => p.2) := by
    rw [fuzzy_search, if_neg hq]
  set L := (sortScoredDesc (scoredItems items (lowerStr query) key threshold)).take
    limit with hL
  have hj2 : j < L.length := by
    have := hj; rw [hres] at this; simpa using this
  have hi2 : i < L.length := lt_trans hij hj2
  have hgj : (fuzzy_search items query key limit threshold).get ⟨j, hj⟩ =
      (L.get ⟨j, hj2⟩).2 := by
    rw [List.get_of_eq hres]
    exact List.get_map ..
  have hgi : (fuzzy_search items query key limit threshold).get
      ⟨i, lt_trans hij hj⟩ = (L.get ⟨i, hi2⟩).2 := by
    rw [List.get_of_eq hres]
    exact List.get_map ..
  have hsorted : L.Pairwise (fun a b => b.1 ≤ a.1) :=
    (pairwise_sortScoredDesc _).sublist (List.take_sublist _ _)
  have hrel : (L.get ⟨j, hj2⟩).1 ≤ (L.get ⟨i, hi2⟩).1 :=
    List.pairwise_iff_get.mp hsorted ⟨i, hi2⟩ ⟨j, hj2⟩ hij
  have hscore : ∀ (k : Nat) (hk : k < L.length),
      (L.get ⟨k, hk⟩).1 = fuzzyScore (lowerStr query) (key ((L.get ⟨k, hk⟩).2)) := by
    intro k hk
    have hmem : L.get ⟨k, hk⟩ ∈ L := List.get_mem L k hk
    have : L.get ⟨k, hk⟩ ∈ scoredItems items (lowerStr query) key threshold :=
      mem_sortScoredDesc.mp (List.mem_of_mem_take hmem)
    exact (mem_scoredItems this).1
  rw [hgj, hgi, ← hscore j hj2, ← hscore i hi2]
  exact hrel

/-- C3 (amended): in a `fuzzy_search` result, any item ranked strictly
before a substring-matching item has fuzzy score at least 9/10 — it is
either itself a substring match or an edit-distance match whose
similarity reaches the containment tier 0.9.  (The original claim, that
substring matches strictly outrank every pure edit-distance match, fails:
a pure edit-distance score can equal or exceed 0.9.) -/
theorem fuzzy_substring_rank {T : Type} (items : List T) (query : Str)
    (key : T → Str) (limit : Nat) (threshold : ℚ) (hq : query ≠ [])
    (i j : Nat) (hij : i < j)
    (hj : j < (fuzzy_search items query key limit threshold).length)
    (hsub : containsSub
        (lowerStr (key ((fuzzy_search items query key limit threshold).get
          ⟨j, hj⟩))) (lowerStr query) = true) :
    9 / 10 ≤ fuzzyScore (lowerStr query)
        (key ((fuzzy_search items query key limit threshold).get
          ⟨i, lt_trans hij hj⟩)) :=
  le_trans (fuzzyScore_substring_tier hsub)
    (fuzzy_search_score_anti items query key limit threshold hq i j hij hj)

set_option maxRecDepth 4000 in
theorem fuzzyScore_cex_nonsub :
    fuzzyScore "abcdefghij".data "abcdefghiz".data = 9 / 10 := by
  rw [fuzzyScore]
  rw [if_neg (by decide : ¬ (containsSub (lowerStr "abcdefghiz".data)
    "abcdefghij".data = true))]
  rw [if_neg (by decide : ¬ (("abcdefghij".data : Str).length * 2 <
    (lowerStr "abcdefghiz".data).length))]
  rw [similarityScore]
  rw [if_neg (by decide), if_neg (by decide)]
  rw [show levenshtein_distance (lowerStr "abcdefghij".data)
    (lowerStr (lowerStr "abcdefghiz".data)) = 1 by decide]
  rw [show max ("abcdefghij".data : Str).length
    (lowerStr "abcdefghiz".data).length = 10 by decide]
  norm_num

theorem fuzzyScore_cex_sub :
    fuzzyScore "abcdefghij".data "xabcdefghij".data = 9 / 10 := by
  rw [fuzzyScore]
  rw [if_pos (by decide : containsSub (lowerStr "xabcdefghij".data)
    "abcdefghij".data = true)]
  rw [if_neg (by decide), if_neg (by decide)]

theorem fuzzy_cex_eval :
    fuzzy_search ["abcdefghiz".data, "xabcdefghij".data] "abcdefghij".data
        (fun s => s) 10 (1 / 2)
      = ["abcdefghiz".data, "xabcdefghij".data] := by
  rw [fuzzy_search, if_neg (by decide : ¬ ("abcdefghij".data = ([] : Str)))]
  rw [scoredItems]
  rw [show lowerStr "abcdefghij".data = "abcdefghij".data by decide]
  simp only [List.filterMap_cons, List.filterMap_nil]
  rw [fuzzyScore_cex_nonsub, fuzzyScore_cex_sub]
  rw [if_pos (by norm_num : (1 : ℚ) / 2 ≤ 9 / 10),
    if_pos (by norm_num : (1 : ℚ) / 2 ≤ 9 / 10)]
  simp only [sortScoredDesc, List.foldr_cons, List.foldr_nil, insertScoredDesc]
  rw [if_pos (by norm_num : (9 : ℚ) / 10 ≤ 9 / 10)]
  simp

/-- C3 (counterexample to the original claim): for the query
"abcdefghij", the item "abcdefghiz" is a pure edit-distance match (it
does not contain the query; its similarity is 1 − 1/10 = 0.9) while
"xabcdefghij" is a substring match (containment tier 0.9); the returned
ranking places the pure edit-distance match first, so substring matches
do not always outrank pure edit-distance matches. -/
theorem fuzzy_substring_rank_counterexample :
    fuzzy_search ["abcdefghiz".data, "xabcdefghij".data] "abcdefghij".data
        (fun s => s) 10 (1 / 2)
      = ["abcdefghiz".data, "xabcdefghij".data] ∧
    containsSub (lowerStr "abcdefghiz".data) (lowerStr "abcdefghij".data) = false ∧
    containsSub (lowerStr "xabcdefghij".data) (lowerStr "abcdefghij".data) = true :=
  ⟨fuzzy_cex_eval, by decide, by decide⟩

theorem fuzzyScore_wit_exact : fuzzyScore "ab".data "ab".data = 1 := by
  rw [fuzzyScore]
  rw [if_pos (by decide : containsSub (lowerStr "ab".data) "ab".data = true)]
  rw [if_pos (by decide : lowerStr "ab".data = "ab".data)]

theorem fuzzyScore_wit_sub : fuzzyScore "ab".data "xaby".data = 9 / 10 := by
  rw [fuzzyScore]
  rw [if_pos (by decide : containsSub (lowerStr "xaby".data) "ab".data = true)]
  rw [if_neg (by decide), if_neg (by decide)]

theorem fuzzy_wit_eval :
    fuzzy_search ["ab".data, "xaby".data] "ab".data (fun s => s) 10 (1 / 2)
      = ["ab".data, "xaby".data] := by
  rw [fuzzy_search, if_neg (by decide : ¬ ("ab".data = ([] : Str)))]
  rw [scoredItems]
  rw [show lowerStr "ab".data = "ab".data by decide]
  simp only [List.filterMap_cons, List.filterMap_nil]
  rw [fuzzyScore_wit_exact, fuzzyScore_wit_sub]
  rw [if_pos (by norm_num : (1 : ℚ) / 2 ≤ 1),
    if_pos (by norm_num : (1 : ℚ) / 2 ≤ 9 / 10)]
  simp only [sortScoredDesc, List.foldr_cons, List.foldr_nil, insertScoredDesc]
  rw [if_pos (by norm_num : (9 : ℚ) / 10 ≤ 1)]
  simp

/-- Witness for `fuzzy_substring_rank` at a concrete input. -/
theorem fuzzy_substring_rank_witness :
    ("ab".data ≠ ([] : Str) ∧ (0 : Nat) < 1 ∧
      containsSub (lowerStr ((fuzzy_search ["ab".data, "xaby".data] "ab".data
          (fun s => s) 10 (1 / 2)).get
        ⟨1, by rw [fuzzy_wit_eval]; decide⟩)) (lowerStr "ab".data) = true) ∧
    9 / 10 ≤ fuzzyScore (lowerStr "ab".data)
        ((fuzzy_search ["ab".data, "xaby".data] "ab".data
          (fun s => s) 10 (1 / 2)).get ⟨0, by rw [fuzzy_wit_eval]; decide⟩) := by
  have h2 : 1 < (fuzzy_search ["ab".data, "xaby".data] "ab".data
      (fun s => s) 10 (1 / 2)).length := by
    rw [fuzzy_wit_eval]; decide
  have hget : (fuzzy_search ["ab".data, "xaby".data] "ab".data
      (fun s => s) 10 (1 / 2)).get ⟨1, h2⟩ = "xaby".data := by
    have h := List.get_of_eq fuzzy_wit_eval ⟨1, h2⟩
    rw [h]; rfl
  have hsub : containsSub (lowerStr ((fuzzy_search ["ab".data, "xaby".data]
      "ab".data (fun s => s) 10 (1 / 2)).get ⟨1, h2⟩))
      (lowerStr "ab".data) = true := by
    rw [hget]; decide
  exact ⟨⟨by decide, Nat.zero_lt_one, hsub⟩,
    fuzzy_substring_rank ["ab".data, "xaby".data] "ab".data (fun s => s)
      10 (1 / 2) (by decide) 0 1 Nat.zero_lt_one h2 hsub⟩

theorem getVal_none_idem {V : Type} (now : Int) (st : Cell V)
    (h : (AsyncCache.getVal now st).1 = none) :
    AsyncCache.getVal now (AsyncCache.getVal now st).2 =
      (none, (AsyncCache.getVal now st).2) := by
  cases st with
  | none => simp [AsyncCache.getVal, cellGet]
  | some e =>
    by_cases hex : e.is_expired now
    · simp [AsyncCache.getVal, cellGet, hex]
    · simp [AsyncCache.getVal, cellGet, hex] at h ⊢
      exact h

theorem getVal_eta {V : Type} (now : Int) (st : Cell V)
    (h : (AsyncCache.getVal now st).1 = none) :
    AsyncCache.getVal now st = (none, (AsyncCache.getVal now st).2) := by
  rw [← h]

theorem get_or_fetch_miss_error {V E : Type} (now ttl : Int)
    (f : Nat → Except E (Option V)) (st : Cell V) (cnt : Nat) (err : E)
    (hmiss : (AsyncCache.getVal now st).1 = none) (hf : f cnt = .error err) :
    get_or_fetch now ttl f st cnt =
      (.error err, (AsyncCache.getVal now st).2, cnt + 1) := by
  rw [get_or_fetch, getVal_eta now st hmiss]
  dsimp only
  rw [getVal_none_idem now st hmiss]
  dsimp only
  rw [hf]

theorem get_or_fetch_miss_ok {V E : Type} (now ttl : Int)
    (f : Nat → Except E (Option V)) (st : Cell V) (cnt : Nat) (w : Option V)
    (hmiss : (AsyncCache.getVal now st).1 = none) (hf : f cnt = .ok w) :
    get_or_fetch now ttl f st cnt =
      (.ok w, AsyncCache.setVal now ttl w, cnt + 1) := by
  rw [get_or_fetch, getVal_eta now st hmiss]
  dsimp only
  rw [getVal_none_idem now st hmiss]
  dsimp only
  rw [hf]

/-- C4: FileBackend.get on a key whose backing file exists but whose
content fails to deserialise (json.JSONDecodeError or a missing
value/expires_at field, i.e. every content `c` with `parse c = none`)
returns `None` — a cache miss, not an error — and afterwards the backing
file no longer exists. -/
theorem fileBackend_corrupt_get {C V : Type} (parse : C → Option (Option V × Int))
    (now : Int) (c : C) (h : parse c = none) :
    fileGet parse now (some c) = (none, none) := by
  simp [fileGet, h]

/-- Witness for `fileBackend_corrupt_get`. -/
theorem fileBackend_corrupt_get_witness :
    ((fun _ : Nat => (none : Option (Option Nat × Int))) 0 = none) ∧
      fileGet (fun _ : Nat => (none : Option (Option Nat × Int))) 0 (some 0)
        = (none, none) :=
  ⟨rfl, fileBackend_corrupt_get (fun _ : Nat => none) 0 0 rfl⟩

/-- C8: `is_expired()` is true iff the current time is strictly greater
than `expires_at`; a MemoryBackend get on a key whose stored entry has
`expires_at` in the past returns `None` and deletes the dictionary entry
(leaving other keys untouched); a FileBackend get on such an entry
returns `None` and removes the backing file. -/
theorem expiry_semantics :
    (∀ (V : Type) (e : CacheEntry V) (now : Int),
      e.is_expired now = true ↔ now > e.expires_at) ∧
    (∀ (K V : Type) [DecidableEq K] (now : Int) (st : MemStore K V)
      (k : K) (e : CacheEntry V), st k = some e → now > e.expires_at →
      (memGet now st k).1 = none ∧ (memGet now st k).2 k = none ∧
        ∀ k2, k2 ≠ k → (memGet now st k).2 k2 = st k2) ∧
    (∀ (C V : Type) (parse : C → Option (Option V × Int)) (now : Int) (c : C)
      (v : Option V) (exp : Int), parse c = some (v, exp) → now > exp →
      fileGet parse now (some c) = (none, none)) := by
  refine ⟨?_, ?_, ?_⟩
  · intro V e now
    simp [CacheEntry.is_expired]
  · intro K V _ now st k e hk hexp
    have hex : e.is_expired now = true := by simp [CacheEntry.is_expired, hexp]
    refine ⟨?_, ?_, ?_⟩
    · simp [memGet, hk, hex]
    · simp [memGet, hk, hex]
    · intro k2 hk2
      simp [memGet, hk, hex, hk2]
  · intro C V parse now c v exp hparse hexp
    have hex : (CacheEntry.mk v exp).is_expired now = true := by
      simp [CacheEntry.is_expired, hexp]
    simp [fileGet, hparse, hex]

/-- Witness for `expiry_semantics`: a concrete expired entry under each
backend. -/
theorem expiry_semantics_witness :
    ((5 : Int) > 3) ∧
    (CacheEntry.is_expired (CacheEntry.mk (some 1) 3) 5 = true ↔ (5 : Int) > 3) ∧
    ((fun k : Nat => if k = 0 then some (CacheEntry.mk (some 7) 3) else none) 0
      = some (CacheEntry.mk (some 7) 3)) ∧
    ((memGet 5 (fun k : Nat => if k = 0 then some (CacheEntry.mk (some 7) 3) else none)
        0).1 = none ∧
      (memGet 5 (fun k : Nat => if k = 0 then some (CacheEntry.mk (some 7) 3) else none)
        0).2 0 = none ∧
      ∀ k2, k2 ≠ 0 →
        (memGet 5 (fun k : Nat => if k = 0 then some (CacheEntry.mk (some 7) 3) else none)
          0).2 k2
        = (fun k : Nat => if k = 0 then some (CacheEntry.mk (some 7) 3) else none) k2) ∧
    fileGet (fun _ : Nat => some (some 7, (3 : Int))) 5 (some 0) = (none, none) := by
  refine ⟨by decide, expiry_semantics.1 Nat (CacheEntry.mk (some 1) 3) 5, rfl, ?_, ?_⟩
  · exact expiry_semantics.2.1 Nat Nat 5 _ 0 (CacheEntry.mk (some 7) 3) rfl (by decide)
  · exact expiry_semantics.2.2 Nat Nat (fun _ => some (some 7, 3)) 5 0 (some 7) 3 rfl
      (by decide)

/-- C9: if `fetch_fn` returns `None` on a cache miss, `get_or_fetch`
returns `None`; an entry holding `None` is written to the backend, yet
every subsequent `get` at any time returns `None` and every subsequent
`get_or_fetch` invokes its fetch again — a stored `None` is
indistinguishable from absence at the public interface. -/
theorem getOrFetch_none_value {V E : Type} (now ttl : Int) (st : Cell V)
    (cnt : Nat) (f : Nat → Except E (Option V))
    (hmiss : (AsyncCache.getVal now st).1 = none)
    (hf : f cnt = .ok none) :
    get_or_fetch now ttl f st cnt =
        (.ok none, some (CacheEntry.mk none (now + ttl)), cnt + 1) ∧
      (∀ now2 : Int,
        (AsyncCache.getVal now2
          (some (CacheEntry.mk (none : Option V) (now + ttl)))).1 = none) ∧
      (∀ (now2 ttl2 : Int) (g : Nat → Except E (Option V)) (cnt2 : Nat),
        (get_or_fetch now2 ttl2 g
          (some (CacheEntry.mk (none : Option V) (now + ttl))) cnt2).2.2
          = cnt2 + 1) := by
  refine ⟨?_, ?_, ?_⟩
  · rw [get_or_fetch_miss_ok now ttl f st cnt none hmiss hf]
    rfl
  · intro now2
    by_cases hex : (CacheEntry.mk (none : Option V) (now + ttl)).is_expired now2 <;>
      simp [AsyncCache.getVal, cellGet, hex]
  · intro now2 ttl2 g cnt2
    have hm2 : (AsyncCache.getVal now2
        (some (CacheEntry.mk (none : Option V) (now + ttl)))).1 = none := by
      by_cases hex : (CacheEntry.mk (none : Option V) (now + ttl)).is_expired now2 <;>
        simp [AsyncCache.getVal, cellGet, hex]
    rcases hg : g cnt2 with e | w
    · rw [get_or_fetch_miss_error now2 ttl2 g _ cnt2 e hm2 hg]
    · rw [get_or_fetch_miss_ok now2 ttl2 g _ cnt2 w hm2 hg]

/-- Witness for `getOrFetch_none_value`. -/
theorem getOrFetch_none_value_witness :
    ((AsyncCache.getVal 0 (none : Cell Nat)).1 = none ∧
      (fun _ : Nat => (Except.ok none : Except Unit (Option Nat))) 0 = .ok none) ∧
    (get_or_fetch 0 5 (fun _ : Nat => (Except.ok none : Except Unit (Option Nat)))
        (none : Cell Nat) 0
      = (.ok none, some (CacheEntry.mk none 5), 1) ∧
      (∀ now2 : Int,
        (AsyncCache.getVal now2 (some (CacheEntry.mk (none : Option Nat) 5))).1
          = none) ∧
      (∀ (now2 ttl2 : Int) (g : Nat → Except Unit (Option Nat)) (cnt2 : Nat),
        (get_or_fetch now2 ttl2 g
          (some (CacheEntry.mk (none : Option Nat) 5)) cnt2).2.2 = cnt2 + 1)) :=
  ⟨⟨rfl, rfl⟩, getOrFetch_none_value 0 5 none 0 _ rfl rfl⟩

theorem getVal_snd_cases {V : Type} (now : Int) (st : Cell V) :
    (AsyncCache.getVal now st).2 = st ∨ (AsyncCache.getVal now st).2 = none := by
  cases st with
  | none => left; simp [AsyncCache.getVal, cellGet]
  | some e =>
    by_cases hex : e.is_expired now
    · right; simp [AsyncCache.getVal, cellGet, hex]
    · left; simp [AsyncCache.getVal, cellGet, hex]

/-- C5: if `fetch_fn` raises during `get_or_fetch` on a cache miss, the
exception propagates to the caller, no entry is cached for the key (the
backend cell is unchanged, except that an already-expired entry was
lazily dropped by the read), the key still yields no value, and a
subsequent `get_or_fetch` invokes the fetch again. -/
theorem getOrFetch_fetch_error {V E : Type} (now ttl : Int) (st : Cell V)
    (cnt : Nat) (f : Nat → Except E (Option V)) (err : E)
    (hmiss : (AsyncCache.getVal now st).1 = none)
    (hf : f cnt = .error err) :
    (get_or_fetch now ttl f st cnt).1 = .error err ∧
    (get_or_fetch now ttl f st cnt).2.2 = cnt + 1 ∧
    ((get_or_fetch now ttl f st cnt).2.1 = st ∨
      (get_or_fetch now ttl f st cnt).2.1 = none) ∧
    (AsyncCache.getVal now (get_or_fetch now ttl f st cnt).2.1).1 = none ∧
    (∀ ttl2 : Int,
      (get_or_fetch now ttl2 f (get_or_fetch now ttl f st cnt).2.1
        (cnt + 1)).2.2 = cnt + 2) := by
  have heq := get_or_fetch_miss_error now ttl f st cnt err hmiss hf
  have hm2 : (AsyncCache.getVal now (get_or_fetch now ttl f st cnt).2.1).1 = none := by
    rw [heq]
    have := getVal_none_idem now st hmiss
    rw [this]
  refine ⟨by rw [heq], by rw [heq], ?_, hm2, ?_⟩
  · rw [heq]
    exact getVal_snd_cases now st
  · intro ttl2
    rcases hg : f (cnt + 1) with e2 | w
    · rw [get_or_fetch_miss_error now ttl2 f _ (cnt + 1) e2 hm2 hg]
    · rw [get_or_fetch_miss_ok now ttl2 f _ (cnt + 1) w hm2 hg]

/-- Witness for `getOrFetch_fetch_error`. -/
theorem getOrFetch_fetch_error_witness :
    ((AsyncCache.getVal 0 (none : Cell Nat)).1 = none ∧
      (fun _ : Nat => (Except.error 7 : Except Nat (Option Nat))) 0 = .error 7) ∧
    ((get_or_fetch 0 5 (fun _ : Nat => (Except.error 7 : Except Nat (Option Nat)))
        (none : Cell Nat) 0).1 = .error 7 ∧
      (get_or_fetch 0 5 (fun _ : Nat => (Except.error 7 : Except Nat (Option Nat)))
        (none : Cell Nat) 0).2.2 = 1 ∧
      ((get_or_fetch 0 5 (fun _ : Nat => (Except.error 7 : Except Nat (Option Nat)))
        (none : Cell Nat) 0).2.1 = none ∨
        (get_or_fetch 0 5 (fun _ : Nat => (Except.error 7 : Except Nat (Option Nat)))
          (none : Cell Nat) 0).2.1 = none) ∧
      (AsyncCache.getVal 0
        (get_or_fetch 0 5 (fun _ : Nat => (Except.error 7 : Except Nat (Option Nat)))
          (none : Cell Nat) 0).2.1).1 = none ∧
      (∀ ttl2 : Int,
        (get_or_fetch 0 ttl2 (fun _ : Nat => (Except.error 7 : Except Nat (Option Nat)))
          (get_or_fetch 0 5 (fun _ : Nat => (Except.error 7 : Except Nat (Option Nat)))
            (none : Cell Nat) 0).2.1 1).2.2 = 2)) :=
  ⟨⟨rfl, rfl⟩, getOrFetch_fetch_error 0 5 none 0 _ 7 rfl rfl⟩

/-- C10: for every input string on which the global-ID conversion raises
`ValueError` (wrong prefix or non-numeric suffix),
`StopHelper.get_by_global_id` returns `None` rather than propagating the
error, leaves the cache state unchanged, performs no fetch, and performs
no cache operation at all (empty operation trace). -/
theorem get_by_global_id_invalid {E : Type} (hasCache : Bool) (now : Int)
    (f : Nat → Except E (Option (List StopInfo))) (st : Cell (List StopInfo))
    (cnt : Nat) (gid : Str) (h : global_id_to_site_id gid = .error ()) :
    stop_get_by_global_id hasCache now f st cnt gid = (.ok none, st, cnt, []) := by
  rw [stop_get_by_global_id, h]

/-- Witness for `get_by_global_id_invalid` on the malformed ID "foo". -/
theorem get_by_global_id_invalid_witness :
    (global_id_to_site_id "foo".data = .error ()) ∧
    stop_get_by_global_id true 0
        (fun _ : Nat => (Except.ok none : Except Unit (Option (List StopInfo))))
        none 0 "foo".data
      = (.ok none, none, 0, []) :=
  ⟨rfl, get_by_global_id_invalid true 0 _ none 0 "foo".data rfl⟩

theorem missStore_step {V : Type} (t : Int) (st : Cell V)
    (hm : missStore t st) : missStore t (AsyncCache.getVal t st).2 := by
  rw [missStore, getVal_none_idem t st hm]

theorem getVal_hit_store {V : Type} (t ttl : Int) (w : Option V)
    (httl : 0 ≤ ttl) :
    AsyncCache.getVal t (some (CacheEntry.mk w (t + ttl))) =
      (w, some (CacheEntry.mk w (t + ttl))) := by
  have hex : (CacheEntry.mk w (t + ttl)).is_expired t = false := by
    simp only [CacheEntry.is_expired, decide_eq_false_iff_not, not_lt]
    omega
  simp [AsyncCache.getVal, cellGet, hex]

theorem inCS_not_done {V : Type} {r : Option V} :
    ¬ (GofPc.done r).inCS := by simp [GofPc.inCS]

theorem gofStep_inv {V : Type} {n : Nat} {t ttl : Int} {f : Nat → Option V}
    (hf : ∀ k, f k ≠ none) (httl : 0 ≤ ttl) (s : GofSys V n) (i : Fin n)
    (hinv : GofInv t ttl f s) : GofInv t ttl f (gofStep t ttl f s i) := by
  cases hinv with
  | phaseA hc hm hp hcs huniq =>
    rcases hp i with hpc | hpc | hpc | hpc
    · rcases hgv : AsyncCache.getVal t s.store with ⟨c, st2⟩
      have hcnone : c = none := by
        have h2 := hm; rw [missStore, hgv] at h2; exact h2
      subst hcnone
      have hst2 : st2 = (AsyncCache.getVal t s.store).2 := by rw [hgv]
      simp only [gofStep, hpc, hgv]
      refine GofInv.phaseA _ hc ?_ ?_ ?_ ?_
      · show missStore t st2
        rw [hst2]
        exact missStore_step t s.store hm
      · intro j
        simp only [Function.update_apply]
        split
        · exact Or.inr (Or.inl rfl)
        · exact hp j
      · intro j hj
        simp only [Function.update_apply] at hj
        by_cases hji : j = i
        · rw [if_pos hji] at hj
          exact absurd hj (by simp [GofPc.inCS])
        · rw [if_neg hji] at hj
          exact hcs j hj
      · intro j k hj hk
        simp only [Function.update_apply] at hj hk
        by_cases hji : j = i
        · rw [if_pos hji] at hj
          exact absurd hj (by simp [GofPc.inCS])
        · rw [if_neg hji] at hj
          by_cases hki : k = i
          · rw [if_pos hki] at hk
            exact absurd hk (by simp [GofPc.inCS])
          · rw [if_neg hki] at hk
            exact huniq j k hj hk
    · by_cases hl : s.lock = true
      · simp only [gofStep, hpc]
        rw [if_pos hl]
        exact GofInv.phaseA _ hc hm hp hcs huniq
      · simp only [gofStep, hpc]
        rw [if_neg hl]
        refine GofInv.phaseA _ hc hm ?_ ?_ ?_
        · intro j
          simp only [Function.update_apply]
          split
          · exact Or.inr (Or.inr (Or.inl rfl))
          · exact hp j
        · intro j _
          rfl
        · intro j k hj hk
          simp only [Function.update_apply] at hj hk
          by_cases hji : j = i
          · by_cases hki : k = i
            · rw [hji, hki]
            · rw [if_neg hki] at hk
              exact absurd (hcs k hk) hl
          · rw [if_neg hji] at hj
            exact absurd (hcs j hj) hl
    · rcases hgv : AsyncCache.getVal t s.store with ⟨c, st2⟩
      have hcnone : c = none := by
        have h2 := hm; rw [missStore, hgv] at h2; exact h2
      subst hcnone
      have hst2 : st2 = (AsyncCache.getVal t s.store).2 := by rw [hgv]
      simp only [gofStep, hpc, hgv]
      refine GofInv.phaseA _ hc ?_ ?_ ?_ ?_
      · show missStore t st2
        rw [hst2]
        exact missStore_step t s.store hm
      · intro j
        simp only [Function.update_apply]
        split
        · exact Or.inr (Or.inr (Or.inr rfl))
        · exact hp j
      · intro j hj
        exact hcs i (by rw [hpc]; trivial)
      · intro j k hj hk
        simp only [Function.update_apply] at hj hk
        by_cases hji : j = i
        · by_cases hki : k = i
          · rw [hji, hki]
          · rw [if_neg hki] at hk
            rw [hji]
            exact (huniq k i hk (by rw [hpc]; trivial)).symm
        · rw [if_neg hji] at hj
          by_cases hki : k = i
          · rw [hki]
            exact huniq j i hj (by rw [hpc]; trivial)
          · rw [if_neg hki] at hk
            exact huniq j k hj hk
    · simp only [gofStep, hpc]
      refine GofInv.phaseB1 _ i ?_ hm ?_ ?_ ?_
      · show s.fetchCount + 1 = 1
        rw [hc]
      · exact hcs i (by rw [hpc]; trivial)
      · simp only [Function.update_same, hc]
      · intro j hji
        simp only [Function.update_noteq hji]
        rcases hp j with h2 | h2 | h2 | h2
        · exact Or.inl h2
        · exact Or.inr h2
        · exact absurd (huniq j i (by rw [h2]; trivial) (by rw [hpc]; trivial)) hji
        · exact absurd (huniq j i (by rw [h2]; trivial) (by rw [hpc]; trivial)) hji
  | phaseB1 o hc hm hl ho hrest =>
    by_cases hio : i = o
    · subst hio
      simp only [gofStep, ho]
      refine GofInv.phaseB2 _ i hc rfl hl ?_ ?_
      · simp only [Function.update_same]
      · intro j hji
        simp only [Function.update_noteq hji]
        rcases hrest j hji with h2 | h2
        · exact Or.inl h2
        · exact Or.inr (Or.inl h2)
    · rcases hrest i hio with hpc | hpc
      · rcases hgv : AsyncCache.getVal t s.store with ⟨c, st2⟩
        have hcnone : c = none := by
          have h2 := hm; rw [missStore, hgv] at h2; exact h2
        subst hcnone
        have hst2 : st2 = (AsyncCache.getVal t s.store).2 := by rw [hgv]
        simp only [gofStep, hpc, hgv]
        refine GofInv.phaseB1 _ o hc ?_ hl ?_ ?_
        · show missStore t st2
          rw [hst2]
          exact missStore_step t s.store hm
        · simp only [Function.update_noteq (Ne.symm hio)]
          exact ho
        · intro j hjo
          simp only [Function.update_apply]
          split
          · exact Or.inr rfl
          · exact hrest j hjo
      · simp only [gofStep, hpc]
        rw [if_pos hl]
        exact GofInv.phaseB1 _ o hc hm hl ho hrest
  | phaseB2 o hc hstore hl ho hrest =>
    by_cases hio : i = o
    · subst hio
      simp only [gofStep, ho]
      refine GofInv.phaseB3 _ hc hstore ?_ ?_ ?_
      · intro j
        simp only [Function.update_apply]
        split
        · exact Or.inr (Or.inr (Or.inr rfl))
        · rename_i hji
          rcases hrest j hji with h2 | h2 | h2
          · exact Or.inl h2
          · exact Or.inr (Or.inl h2)
          · exact Or.inr (Or.inr (Or.inr h2))
      · intro j hj
        simp only [Function.update_apply] at hj
        by_cases hji : j = i
        · rw [if_pos hji] at hj
          exact absurd hj (by simp [GofPc.inCS])
        · rw [if_neg hji] at hj
          rcases hrest j hji with h2 | h2 | h2 <;> rw [h2] at hj <;>
            exact absurd hj (by simp [GofPc.inCS])
      · intro j k hj hk
        simp only [Function.update_apply] at hj hk
        by_cases hji : j = i
        · rw [if_pos hji] at hj
          exact absurd hj (by simp [GofPc.inCS])
        · rw [if_neg hji] at hj
          rcases hrest j hji with h2 | h2 | h2 <;> rw [h2] at hj <;>
            exact absurd hj (by simp [GofPc.inCS])
    · rcases hrest i hio with hpc | hpc | hpc
      · rcases hf0 : f 0 with _ | v
        · exact absurd hf0 (hf 0)
        · have hhit2 := getVal_hit_store t ttl (some v) httl
          simp only [gofStep, hpc, hstore, hf0, hhit2]
          refine GofInv.phaseB2 _ o hc ?_ hl ?_ ?_
          · rw [hf0]
          · simp only [Function.update_noteq (Ne.symm hio)]
            exact ho
          · intro j hjo
            simp only [Function.update_apply]
            split
            · exact Or.inr (Or.inr (by rw [hf0]))
            · exact hrest j hjo
      · simp only [gofStep, hpc]
        rw [if_pos hl]
        exact GofInv.phaseB2 _ o hc hstore hl ho hrest
      · simp only [gofStep, hpc]
        exact GofInv.phaseB2 _ o hc hstore hl ho hrest
  | phaseB3 hc hstore hp hcs huniq =>
    rcases hp i with hpc | hpc | hpc | hpc
    · rcases hf0 : f 0 with _ | v
      · exact absurd hf0 (hf 0)
      · have hhit2 := getVal_hit_store t ttl (some v) httl
        simp only [gofStep, hpc, hstore, hf0, hhit2]
        refine GofInv.phaseB3 _ hc ?_ ?_ ?_ ?_
        · rw [hf0]
        · intro j
          simp only [Function.update_apply]
          split
          · exact Or.inr (Or.inr (Or.inr (by rw [hf0])))
          · exact hp j
        · intro j hj
          simp only [Function.update_apply] at hj
          by_cases hji : j = i
          · rw [if_pos hji] at hj
            exact absurd hj (by simp [GofPc.inCS])
          · rw [if_neg hji] at hj
            exact hcs j hj
        · intro j k hj hk
          simp only [Function.update_apply] at hj hk
          by_cases hji : j = i
          · rw [if_pos hji] at hj
            exact absurd hj (by simp [GofPc.inCS])
          · rw [if_neg hji] at hj
            by_cases hki : k = i
            · rw [if_pos hki] at hk
              exact absurd hk (by simp [GofPc.inCS])
            · rw [if_neg hki] at hk
              exact huniq j k hj hk
    · by_cases hl : s.lock = true
      · simp only [gofStep, hpc]
        rw [if_pos hl]
        exact GofInv.phaseB3 _ hc hstore hp hcs huniq
      · simp only [gofStep, hpc]
        rw [if_neg hl]
        refine GofInv.phaseB3 _ hc hstore ?_ ?_ ?_
        · intro j
          simp only [Function.update_apply]
          split
          · exact Or.inr (Or.inr (Or.inl rfl))
          · exact hp j
        · intro j _
          rfl
        · intro j k hj hk
          simp only [Function.update_apply] at hj hk
          by_cases hji : j = i
          · by_cases hki : k = i
            · rw [hji, hki]
            · rw [if_neg hki] at hk
              exact absurd (hcs k hk) hl
          · rw [if_neg hji] at hj
            exact absurd (hcs j hj) hl
    · rcases hf0 : f 0 with _ | v
      · exact absurd hf0 (hf 0)
      · have hhit2 := getVal_hit_store t ttl (some v) httl
        simp only [gofStep, hpc, hstore, hf0, hhit2]
        refine GofInv.phaseB3 _ hc ?_ ?_ ?_ ?_
        · rw [hf0]
        · intro j
          simp only [Function.update_apply]
          split
          · exact Or.inr (Or.inr (Or.inr (by rw [hf0])))
          · exact hp j
        · intro j hj
          simp only [Function.update_apply] at hj
          by_cases hji : j = i
          · rw [if_pos hji] at hj
            exact absurd hj (by simp [GofPc.inCS])
          · rw [if_neg hji] at hj
            exact absurd (huniq j i hj (by rw [hpc]; trivial)) hji
        · intro j k hj hk
          simp only [Function.update_apply] at hj hk
          by_cases hji : j = i
          · rw [if_pos hji] at hj
            exact absurd hj (by simp [GofPc.inCS])
          · rw [if_neg hji] at hj
            exact absurd (huniq j i hj (by rw [hpc]; trivial)) hji
    · simp only [gofStep, hpc]
      exact GofInv.phaseB3 _ hc hstore hp hcs huniq

theorem gofRun_inv {V : Type} {n : Nat} {t ttl : Int} {f : Nat → Option V}
    (hf : ∀ k, f k ≠ none) (httl : 0 ≤ ttl) :
    ∀ (sched : List (Fin n)) (s : GofSys V n),
      GofInv t ttl f s → GofInv t ttl f (gofRun t ttl f s sched)
  | [], _, hinv => hinv
  | i :: rest, s, hinv =>
    gofRun_inv hf httl rest (gofStep t ttl f s i) (gofStep_inv hf httl s i hinv)

theorem gofInv_all_done {V : Type} {n : Nat} {t ttl : Int} {f : Nat → Option V}
    (s : GofSys V n) (hn : 0 < n) (hinv : GofInv t ttl f s)
    (hdone : ∀ i, (s.procs i).isDone = true) :
    s.fetchCount = 1 ∧ ∀ i, s.procs i = .done (f 0) := by
  cases hinv with
  | phaseA hc hm hp hcs huniq =>
    exfalso
    have hd := hdone ⟨0, hn⟩
    rcases hp ⟨0, hn⟩ with h2 | h2 | h2 | h2 <;> rw [h2] at hd <;>
      simp [GofPc.isDone] at hd
  | phaseB1 o hc hm hl ho hrest =>
    exfalso
    have hd := hdone o
    rw [ho] at hd
    simp [GofPc.isDone] at hd
  | phaseB2 o hc hstore hl ho hrest =>
    exfalso
    have hd := hdone o
    rw [ho] at hd
    simp [GofPc.isDone] at hd
  | phaseB3 hc hstore hp hcs huniq =>
    refine ⟨hc, ?_⟩
    intro i
    have hd := hdone i
    rcases hp i with h2 | h2 | h2 | h2
    · rw [h2] at hd; exact absurd hd (by simp [GofPc.isDone])
    · rw [h2] at hd; exact absurd hd (by simp [GofPc.isDone])
    · rw [h2] at hd; exact absurd hd (by simp [GofPc.isDone])
    · exact h2

/-- C1 (amended): single-flight for `get_or_fetch` — for every key, every
number N > 0 of concurrent callers, every interleaving of the event loop,
and every initial state in which the cache holds no unexpired entry for
the key, PROVIDED every `fetch_fn` invocation returns a non-`None` value
and the TTL is nonnegative: once all callers have returned, `fetch_fn`
was invoked exactly once and every caller returned the value produced by
that single fetch.  (The original unconditional claim fails when
`fetch_fn` returns `None`: the stored `None` reads as a miss, so later
callers of the same episode fetch again — see the counterexample.) -/
theorem getOrFetch_single_flight {V : Type} (t ttl : Int) (f : Nat → Option V)
    (n : Nat) (st0 : Cell V) (sched : List (Fin n))
    (hf : ∀ k, f k ≠ none) (httl : 0 ≤ ttl) (hn : 0 < n)
    (hmiss : (AsyncCache.getVal t st0).1 = none)
    (hdone : ∀ i, ((gofRun t ttl f (gofInit V n st0) sched).procs i).isDone = true) :
    (gofRun t ttl f (gofInit V n st0) sched).fetchCount = 1 ∧
    ∀ i, (gofRun t ttl f (gofInit V n st0) sched).procs i = .done (f 0) := by
  have hinit : GofInv t ttl f (gofInit V n st0) := by
    refine GofInv.phaseA _ rfl hmiss ?_ ?_ ?_
    · intro i; exact Or.inl rfl
    · intro i h2; exact absurd h2 (by simp [gofInit, GofPc.inCS])
    · intro i j h2 _; exact absurd h2 (by simp [gofInit, GofPc.inCS])
  exact gofInv_all_done _ hn (gofRun_inv hf httl sched _ hinit) hdone

/-- Witness for `getOrFetch_single_flight`: two callers, a schedule in
which the first caller completes its whole fetch before the second runs. -/
theorem getOrFetch_single_flight_witness :
    ((∀ k, (fun _ : Nat => some 42) k ≠ none) ∧ (0 : Int) ≤ 5 ∧ (0 < 2) ∧
      (AsyncCache.getVal 0 (none : Cell Nat)).1 = none ∧
      (∀ i, ((gofRun 0 5 (fun _ => some 42) (gofInit Nat 2 none)
        [0, 0, 0, 0, 0, 0, 1]).procs i).isDone = true)) ∧
    ((gofRun 0 5 (fun _ => some 42) (gofInit Nat 2 none)
        [0, 0, 0, 0, 0, 0, 1]).fetchCount = 1 ∧
      ∀ i, (gofRun 0 5 (fun _ => some 42) (gofInit Nat 2 none)
        [0, 0, 0, 0, 0, 0, 1]).procs i = .done (some 42)) :=
  ⟨⟨by intro k; simp, by decide, by decide, rfl, by decide⟩,
    getOrFetch_single_flight 0 5 (fun _ => some 42) 2 none [0, 0, 0, 0, 0, 0, 1]
      (by intro k; simp) (by decide) (by decide) rfl (by decide)⟩

/-- C1 (counterexample to the original claim): with a fetch that returns
`None`, two concurrent `get_or_fetch` callers on an initially empty key
both run to completion in a single cache-miss episode (the key never
acquires a retrievable value), yet the fetch callable is invoked twice —
not exactly once. -/
theorem getOrFetch_none_refetch_counterexample :
    (gofRun 0 5 (fun _ => (none : Option Nat)) (gofInit Nat 2 none)
        [0, 0, 0, 0, 0, 0, 1, 1, 1, 1, 1, 1]).fetchCount = 2 ∧
    (∀ i, ((gofRun 0 5 (fun _ => (none : Option Nat)) (gofInit Nat 2 none)
        [0, 0, 0, 0, 0, 0, 1, 1, 1, 1, 1, 1]).procs i).isDone = true) ∧
    (AsyncCache.getVal 0 (none : Cell Nat)).1 = none := by
  refine ⟨by decide, by decide, rfl⟩

/-- C2 (amended): the helpers' `get_all` with an `AsyncCache`-backed
cache is sequentially equivalent to `cache.get_or_fetch(FIXED_KEY,
fetch_all, ttl=DEFAULT_TTL)` — same returned value or propagated
exception, same final cache state, same number of fetch invocations, for
every cache state and fetch outcome — but `get_all` provides no
single-flight serialization: it takes no lock, and two interleaved
`get_all` callers can each invoke the fetch. -/
theorem get_all_refines_get_or_fetch :
    (∀ (V E : Type) (now : Int) (f : Nat → Except E (Option V))
      (st : Cell V) (cnt : Nat),
      (helper_get_all true now f st cnt).1 = (get_or_fetch now 604800 f st cnt).1 ∧
      (helper_get_all true now f st cnt).2.1 =
        (get_or_fetch now 604800 f st cnt).2.1 ∧
      (helper_get_all true now f st cnt).2.2.1 =
        (get_or_fetch now 604800 f st cnt).2.2) ∧
    (∃ sched : List (Fin 2),
      (gaRun 0 (fun k => some (100 + k)) (gaInit Nat 2 none) sched).fetchCount
        = 2) := by
  constructor
  · intro V E now f st cnt
    rcases hgv : AsyncCache.getVal now st with ⟨c, st1⟩
    have hst1 : st1 = (AsyncCache.getVal now st).2 := by rw [hgv]
    cases c with
    | some v =>
      have h1 : helper_get_all true now f st cnt
          = (.ok (some v), st1, cnt, [CacheOp.cacheGet]) := by
        rw [helper_get_all, hgv]
        rfl
      have h2 : get_or_fetch now 604800 f st cnt = (.ok (some v), st1, cnt) := by
        rw [get_or_fetch, hgv]
      rw [h1, h2]
      exact ⟨rfl, rfl, rfl⟩
    | none =>
      have hmiss : (AsyncCache.getVal now st).1 = none := by rw [hgv]
      rcases hfq : f cnt with err | w
      · have h1 : helper_get_all true now f st cnt
            = (.error err, st1, cnt + 1, [CacheOp.cacheGet, CacheOp.fetchCall]) := by
          rw [helper_get_all, hgv, hfq]
          rfl
        have h2 := get_or_fetch_miss_error now 604800 f st cnt err hmiss hfq
        rw [h1, h2, ← hst1]
        exact ⟨rfl, rfl, rfl⟩
      · have h1 : helper_get_all true now f st cnt
            = (.ok w, AsyncCache.setVal now 604800 w, cnt + 1,
                [CacheOp.cacheGet, CacheOp.fetchCall, CacheOp.cacheSet]) := by
          rw [helper_get_all, hgv, hfq]
          rfl
        have h2 := get_or_fetch_miss_ok now 604800 f st cnt w hmiss hfq
        rw [h1, h2]
        exact ⟨rfl, rfl, rfl⟩
  · exact ⟨[0, 1, 0, 0, 1, 1], by decide⟩

/-- C2 (counterexample to the original claim): two concurrent `get_all`
callers on an initially empty cache, interleaved so that both fast-path
reads happen before either fetch completes: both callers invoke the
fetch (two invocations, where `get_or_fetch` would have made one) and
they return different values — `get_all` does not have `get_or_fetch`'s
single-flight serialization. -/
theorem get_all_no_single_flight_counterexample :
    (gaRun 0 (fun k => some (100 + k)) (gaInit Nat 2 none)
        [0, 1, 0, 0, 1, 1]).fetchCount = 2 ∧
    (gaRun 0 (fun k => some (100 + k)) (gaInit Nat 2 none)
        [0, 1, 0, 0, 1, 1]).procs 0 = .done (some 100) ∧
    (gaRun 0 (fun k => some (100 + k)) (gaInit Nat 2 none)
        [0, 1, 0, 0, 1, 1]).procs 1 = .done (some 101) := by
  refine ⟨by decide, by decide, by decide⟩

/-- Witness for `substring_search_buckets` at a concrete input
(with truncation exercised: limit 2). -/
theorem substring_search_buckets_witness :
    ("ABC".data ≠ ([] : Str)) ∧
    substring_search ["abc".data, "zabcz".data, "abcd".data, "q".data]
        "ABC".data (fun s => s) 2
      = (["abc".data, "zabcz".data, "abcd".data, "q".data].filter
            (fun it => decide (lowerStr it = lowerStr "ABC".data))
          ++ ["abc".data, "zabcz".data, "abcd".data, "q".data].filter
            (fun it => !decide (lowerStr it = lowerStr "ABC".data) &&
              (lowerStr "ABC".data).isPrefixOf (lowerStr it))
          ++ ["abc".data, "zabcz".data, "abcd".data, "q".data].filter
            (fun it => !decide (lowerStr it = lowerStr "ABC".data) &&
              !((lowerStr "ABC".data).isPrefixOf (lowerStr it)) &&
              containsSub (lowerStr it) (lowerStr "ABC".data))).take 2 :=
  ⟨by decide, substring_search_buckets
    ["abc".data, "zabcz".data, "abcd".data, "q".data] "ABC".data
    (fun s => s) 2 (by decide)⟩
